import Mathlib

/-!
Shallow embedding of the exam-assembly core of `src/server.js`
(endpoint `GET /exams/assembled`: helpers `shuffle`, `buildBlocksForExam`,
`pickBlocks`, the per-exam target computation and the global trim loop),
together with proofs of the specification claims about it.
-/

/-- A question as consumed by the assembly endpoint: an identifier, the
optional group identifier `setId` (absent or empty means ungrouped, matching
the JS truthiness test on `q?.setId`), and the optional `setOrder`
(`none` models a missing or non-finite order, which the code treats as 0). -/
structure Question where
  qid : Nat
  setId : Option String
  setOrder : Option Int
  deriving DecidableEq

/-- An exam: its questions and its `questionPercentage` weight
(`none` models a missing field, which `exam.questionPercentage || 0`
turns into 0). -/
structure Exam where
  questions : List Question
  questionPercentage : Option Int
  deriving DecidableEq

/-- A block is a list of questions selected or rejected as a unit. -/
abbrev Block := List Question

/-- The JSON object returned by the endpoint. -/
structure Response where
  base : Int
  max : Int
  count : Nat
  questions : List Question
  deriving DecidableEq

/-- The effective group key of a question: the code tests `q?.setId` for
truthiness, so a missing or empty `setId` means "ungrouped". -/
def groupKey (q : Question) : Option String :=
  match q.setId with
  | some s => if s = "" then none else some s
  | none => none

/-- The sort key used on grouped questions:
`Number.isFinite(q.setOrder) ? q.setOrder : 0`. -/
def orderVal (q : Question) : Int :=
  q.setOrder.getD 0

/-- Insertion into a list sorted ascending by `key`, before the first element
whose key is not smaller (helper of the stable sort below). -/
def insKey (key : α → Int) (a : α) : List α → List α
  | [] => [a]
  | b :: l => if key a ≤ key b then a :: b :: l else b :: insKey key a l

/-- Stable ascending sort by an integer `key`: the result of the JS
`Array.prototype.sort` with comparator `(x, y) => key x - key y`
(JS sort is stable, and a stable ascending sort is unique). -/
def sortKey (key : α → Int) : List α → List α
  | [] => []
  | a :: l => insKey key a (sortKey key l)

/-- `groups.get(setId).push(q)` on the insertion-ordered JS `Map`, as an
association list: extend the entry with key `k` when present, else append a
new entry at the end. -/
def addToGroups : List (String × List Question) → String → Question → List (String × List Question)
  | [], k, q => [(k, [q])]
  | (k', qs) :: rest, k, q =>
    if k' = k then (k', qs ++ [q]) :: rest
    else (k', qs) :: addToGroups rest k q

/-- One iteration of the classification loop of `buildBlocksForExam`:
a grouped question goes into its bucket, an ungrouped one becomes a
singleton block. -/
def buildStep (acc : List (String × List Question) × List Block) (q : Question) :
    List (String × List Question) × List Block :=
  match groupKey q with
  | some k => (addToGroups acc.1 k q, acc.2)
  | none => (acc.1, acc.2 ++ [[q]])

/-- `buildBlocksForExam` from `src/server.js`: bucket grouped questions by
`setId` in an insertion-ordered map, keep ungrouped questions as singleton
blocks, sort each bucket stably ascending by `setOrder`, and return the
bucket blocks followed by the singleton blocks. -/
def buildBlocksForExam (e : Exam) : List Block :=
  let acc := e.questions.foldl buildStep ([], [])
  acc.1.map (fun p => sortKey orderVal p.2) ++ acc.2

/-- The JS `shuffle` sorts a copy of the array with the random comparator
`() => Math.random() - 0.5`; its outcome is some permutation of the input
determined by the ambient random draws. The draws are modelled as a stream
of naturals selecting which remaining element comes next; an exhausted
stream leaves the rest in place. Every outcome is a permutation of the
input (`shuffleWith_perm`), which is all the claims quantify over. -/
def shuffleWith : List Nat → List α → List α
  | _, [] => []
  | [], a :: l => a :: l
  | n :: ns, a :: l =>
    (a :: l).getD (n % (l.length + 1)) a ::
      shuffleWith ns ((a :: l).eraseIdx (n % (l.length + 1)))

/-- Total question count of a list of blocks. -/
def sumLen (L : List Block) : Nat :=
  (L.map List.length).sum

/-- The greedy walk of `pickBlocks`: accept a block when it still fits in the
target, otherwise skip it and keep walking. -/
def greedyGo (target : Int) : List Block → Int → List Block
  | [], _ => []
  | b :: bs, count =>
    if count + (b.length : Int) ≤ target then b :: greedyGo target bs (count + b.length)
    else greedyGo target bs count

/-- `[...pool].sort((a, b) => a.length - b.length)[0]` wrapped in a singleton
list: the first-encountered smallest block of a non-empty pool. -/
def fallbackSmallest (pool : List Block) : List Block :=
  match sortKey (fun b => (b.length : Int)) pool with
  | [] => []
  | c :: _ => [c]

/-- `pickBlocks` from `src/server.js`: on `target <= 0` return nothing;
otherwise shuffle the blocks, greedily accept those that fit, and if nothing
was accepted while the pool is non-empty, accept the single smallest block
of the shuffled pool. -/
def pickBlocks (sel : List Nat) (blocks : List Block) (target : Int) : List Block :=
  if target ≤ 0 then []
  else
    let pool := shuffleWith sel blocks
    let picked := greedyGo target pool 0
    if picked.isEmpty && !pool.isEmpty then fallbackSmallest pool else picked

/-- `Math.round (num / den)` for a rational with positive denominator:
the floor of `num / den + 1 / 2` (round to nearest, ties toward plus
infinity), computed on integers. -/
def mathRound (num den : Int) : Int :=
  (2 * num + den) / (2 * den)

/-- `exam.questionPercentage || 0`. -/
def weightOf (e : Exam) : Int :=
  e.questionPercentage.getD 0

/-- `Math.round((base * (exam.questionPercentage || 0)) / 100)`. -/
def targetCount (base w : Int) : Int :=
  mathRound (base * w) 100

/-- `Number(req.query.x) > 0 ? Number(req.query.x) : d`: a missing,
non-numeric or non-positive query parameter falls back to the default. -/
def defaultedParam (q : Option Int) (d : Int) : Int :=
  match q with
  | some v => if 0 < v then v else d
  | none => d

/-- The accumulation loop of the endpoint: for each exam, build its blocks,
compute its target, pick blocks, and append the picks; `rngs i` feeds the
shuffle of the exam at position `i`. -/
def assembleBlocks (rngs : Nat → List Nat) (base : Int) : List Exam → Nat → List Block
  | [], _ => []
  | e :: es, i =>
    pickBlocks (rngs i) (buildBlocksForExam e) (targetCount base (weightOf e))
      ++ assembleBlocks rngs base es (i + 1)

/-- The globally shuffled pool, `allBlocks = shuffle(allBlocks)`. -/
def assembledPool (rngs : Nat → List Nat) (rngG : List Nat) (exams : List Exam)
    (qbase : Option Int) : List Block :=
  shuffleWith rngG (assembleBlocks rngs (defaultedParam qbase 25) exams 0)

/-- The global trim loop of the endpoint, building `finalQuestions`: accept a
block when it fits under `max`; when it does not fit and nothing has been
used yet, push it anyway and stop; otherwise skip it and continue. -/
def trimGo (maxv : Int) : List Block → Int → List Question
  | [], _ => []
  | b :: bs, used =>
    if used + (b.length : Int) ≤ maxv then b ++ trimGo maxv bs (used + b.length)
    else if used = 0 then b
    else trimGo maxv bs used

/-- The same trim loop at block granularity (the accepted blocks, kept
unflattened). -/
def trimBlocks (maxv : Int) : List Block → Int → List Block
  | [], _ => []
  | b :: bs, used =>
    if used + (b.length : Int) ≤ maxv then b :: trimBlocks maxv bs (used + b.length)
    else if used = 0 then [b]
    else trimBlocks maxv bs used

/-- The full `GET /exams/assembled` computation as a pure function of the
exam data, the `base` and `max` query parameters, and the random draws
consumed by the per-exam shuffles (`rngs`) and the global shuffle (`rngG`).
The image-URL post-pass keeps the list shape and is outside the core. -/
def assemble (rngs : Nat → List Nat) (rngG : List Nat) (exams : List Exam)
    (qbase qmax : Option Int) : Response :=
  let maxv := defaultedParam qmax 100
  let qs := trimGo maxv (assembledPool rngs rngG exams qbase) 0
  { base := defaultedParam qbase 25, max := maxv, count := qs.length, questions := qs }

/-- The walk the specification describes, used to compare against `trimGo`.
Modelled from the spec: section 4.4 step 3 says blocks that would overflow
`max` are always skipped and the walk continues through every subsequent
block; no block is force-accepted during the walk. -/
def specWalk (maxv : Int) : List Block → Int → List Question
  | [], _ => []
  | b :: bs, used =>
    if used + (b.length : Int) ≤ maxv then b ++ specWalk maxv bs (used + b.length)
    else specWalk maxv bs used

/-- The trim step the specification describes. Modelled from the spec:
section 4.4 step 4 applies the oversized-block fallback only when the final
list is still empty after the entire walk, accepting the first block of the
pool. -/
def specTrim (maxv : Int) (pool : List Block) : List Question :=
  let r := specWalk maxv pool 0
  if r.isEmpty then
    match pool with
    | [] => []
    | b :: _ => b
  else r

/-- All questions of `l` carrying group key `k` (the bucket of `k`), in
original order. -/
def bucket (l : List Question) (k : String) : List Question :=
  l.filter (fun q => groupKey q = some k)

/-- The grouping component of the classification loop on its own. -/
def gstep (gs : List (String × List Question)) (q : Question) :
    List (String × List Question) :=
  match groupKey q with
  | some k => addToGroups gs k q
  | none => gs

/-- The buckets produced by folding the grouping step over a question list. -/
def groupsFold (l : List Question) : List (String × List Question) :=
  l.foldl gstep []

/-- An ungrouped question with a given id (concrete test data). -/
def wq (n : Nat) : Question :=
  { qid := n, setId := none, setOrder := none }

/-- A question in group `g` with a given id and order (concrete test data). -/
def wg (n : Nat) (g : String) (o : Int) : Question :=
  { qid := n, setId := some g, setOrder := some o }

/-- A concrete exam with one two-question group and one ungrouped question. -/
def wExamA : Exam :=
  { questions := [wg 1 "s1" 2, wg 2 "s1" 1, wq 3], questionPercentage := some 100 }

/-- A concrete one-question exam. -/
def wExamB : Exam :=
  { questions := [wq 11], questionPercentage := some 100 }

/-- A second concrete one-question exam. -/
def wExamC : Exam :=
  { questions := [wq 12], questionPercentage := some 100 }

/-- A five-question block (concrete trim-loop data). -/
def cexBigBlock : Block :=
  [wq 1, wq 2, wq 3, wq 4, wq 5]

/-- A two-question block (concrete trim-loop data). -/
def cexSmallBlock : Block :=
  [wq 6, wq 7]

/-- A pool whose first block exceeds a cap of 3 while its second fits. -/
def cexPool : List Block :=
  [cexBigBlock, cexSmallBlock]

/-- A concrete exam with questions but a zero weight. -/
def wExamZ : Exam :=
  { questions := [wq 21, wq 22], questionPercentage := some 0 }

/-! ### Stable sort: permutation, sortedness, stability -/

theorem insKey_perm (key : α → Int) (a : α) (l : List α) :
    (insKey key a l).Perm (a :: l) := by
  induction l with
  | nil => simp [insKey]
  | cons b t ih =>
    by_cases h : key a ≤ key b
    · simp [insKey, h]
    · simp only [insKey, if_neg h]
      exact (ih.cons b).trans (List.Perm.swap a b t)

theorem sortKey_perm (key : α → Int) (l : List α) : (sortKey key l).Perm l := by
  induction l with
  | nil => simp [sortKey]
  | cons a t ih => exact (insKey_perm key a (sortKey key t)).trans (ih.cons a)

theorem insKey_pairwise (key : α → Int) (a : α) (l : List α)
    (h : l.Pairwise (fun x y => key x ≤ key y)) :
    (insKey key a l).Pairwise (fun x y => key x ≤ key y) := by
  induction l with
  | nil => simp [insKey]
  | cons b t ih =>
    rcases List.pairwise_cons.mp h with ⟨hb, ht⟩
    by_cases hab : key a ≤ key b
    · simp only [insKey, if_pos hab]
      refine List.pairwise_cons.mpr ⟨?_, h⟩
      intro x hx
      rcases List.mem_cons.mp hx with rfl | hx
      · exact hab
      · exact le_trans hab (hb x hx)
    · push_neg at hab
      simp only [insKey, if_neg (not_le.mpr hab)]
      refine List.pairwise_cons.mpr ⟨?_, ih ht⟩
      intro x hx
      rcases List.mem_cons.mp ((insKey_perm key a t).mem_iff.mp hx) with rfl | hx
      · exact le_of_lt hab
      · exact hb x hx

theorem sortKey_pairwise (key : α → Int) (l : List α) :
    (sortKey key l).Pairwise (fun x y => key x ≤ key y) := by
  induction l with
  | nil => simp [sortKey]
  | cons a t ih => exact insKey_pairwise key a (sortKey key t) ih

theorem insKey_filter_eq (key : α → Int) (a : α) (v : Int) (l : List α) :
    (insKey key a l).filter (fun x => key x = v) =
      (a :: l).filter (fun x => key x = v) := by
  induction l with
  | nil => rfl
  | cons b t ih =>
    by_cases hab : key a ≤ key b
    · simp [insKey, hab]
    · push_neg at hab
      by_cases ha : key a = v
      · have hb : ¬ (key b = v) := by omega
        simp only [insKey, if_neg (not_le.mpr hab), List.filter_cons, ih]
        simp [ha, hb]
      · simp only [insKey, if_neg (not_le.mpr hab), List.filter_cons, ih]
        simp [ha]

theorem sortKey_filter_eq (key : α → Int) (v : Int) (l : List α) :
    (sortKey key l).filter (fun x => key x = v) = l.filter (fun x => key x = v) := by
  induction l with
  | nil => rfl
  | cons a t ih =>
    calc (sortKey key (a :: t)).filter (fun x => key x = v)
        = (a :: sortKey key t).filter (fun x => key x = v) :=
          insKey_filter_eq key a v (sortKey key t)
      _ = (a :: t).filter (fun x => key x = v) := by
          simp only [List.filter_cons, ih]

theorem sortKey_head_min (key : α → Int) (l : List α) (c : α) (cs : List α)
    (h : sortKey key l = c :: cs) : c ∈ l ∧ ∀ d ∈ l, key c ≤ key d := by
  have hperm := sortKey_perm key l
  have hpw := sortKey_pairwise key l
  rw [h] at hperm hpw
  refine ⟨hperm.subset (List.mem_cons_self c cs), ?_⟩
  intro d hd
  rcases List.mem_cons.mp (hperm.symm.subset hd) with rfl | hdc
  · exact le_refl _
  · exact (List.pairwise_cons.mp hpw).1 d hdc

/-! ### The shuffle outcome is always a permutation of its input -/

theorem getD_cons_eraseIdx_perm (l : List α) (d : α) :
    ∀ i, i < l.length → ((l.getD i d) :: l.eraseIdx i).Perm l := by
  induction l with
  | nil => intro i h; simp at h
  | cons a t ih =>
    intro i h
    cases i with
    | zero => simp
    | succ n =>
      simp only [List.getD_cons_succ, List.eraseIdx_cons_succ]
      have hn : n < t.length := by simpa using h
      exact (List.Perm.swap a (t.getD n d) (t.eraseIdx n)).trans ((ih n hn).cons a)

theorem shuffleWith_perm (sel : List Nat) (l : List α) : (shuffleWith sel l).Perm l := by
  induction sel generalizing l with
  | nil => cases l <;> simp [shuffleWith]
  | cons n ns ih =>
    cases l with
    | nil => simp [shuffleWith]
    | cons a t =>
      simp only [shuffleWith]
      have hlt : n % (t.length + 1) < (a :: t).length := by
        simpa using Nat.mod_lt _ (Nat.succ_pos t.length)
      exact ((ih _).cons _).trans (getD_cons_eraseIdx_perm (a :: t) a _ hlt)

/-! ### Greedy selection lemmas -/

theorem greedyGo_sum_le (target : Int) :
    ∀ (pool : List Block) (count : Int), count ≤ target →
      count + (sumLen (greedyGo target pool count) : Int) ≤ target := by
  intro pool
  induction pool with
  | nil => intro count h; simpa [greedyGo, sumLen]
  | cons b bs ih =>
    intro count h
    by_cases hfit : count + (b.length : Int) ≤ target
    · simp only [greedyGo, if_pos hfit, sumLen, List.map_cons, List.sum_cons]
      have h2 := ih (count + b.length) hfit
      simp only [sumLen] at h2
      push_cast at h2 ⊢
      omega
    · simp only [greedyGo, if_neg hfit]
      exact ih count h

theorem greedyGo_sublist (target : Int) :
    ∀ (pool : List Block) (count : Int), (greedyGo target pool count).Sublist pool := by
  intro pool
  induction pool with
  | nil => intro count; simp [greedyGo]
  | cons b bs ih =>
    intro count
    by_cases hfit : count + (b.length : Int) ≤ target
    · simpa [greedyGo, hfit] using (ih (count + b.length)).cons₂ b
    · simpa [greedyGo, hfit] using (ih count).cons b

theorem greedyGo_nil_reject (target : Int) :
    ∀ (pool : List Block) (count : Int), greedyGo target pool count = [] →
      ∀ b ∈ pool, target < count + (b.length : Int) := by
  intro pool
  induction pool with
  | nil => intro count _ b hb; simp at hb
  | cons c cs ih =>
    intro count h b hb
    by_cases hfit : count + (c.length : Int) ≤ target
    · simp [greedyGo, hfit] at h
    · rcases List.mem_cons.mp hb with rfl | hb
      · push_neg at hfit
        exact hfit
      · exact ih count (by simpa [greedyGo, hfit] using h) b hb

theorem pickBlocks_subperm (sel : List Nat) (blocks : List Block) (target : Int) :
    (pickBlocks sel blocks target).Subperm blocks := by
  by_cases ht : target ≤ 0
  · simp [pickBlocks, ht, List.nil_subperm]
  · simp only [pickBlocks, if_neg ht]
    have hpp : (shuffleWith sel blocks).Perm blocks := shuffleWith_perm sel blocks
    by_cases hcase :
        (greedyGo target (shuffleWith sel blocks) 0).isEmpty
          && !(shuffleWith sel blocks).isEmpty
    · simp only [if_pos hcase]
      rcases hsort : sortKey (fun b => (b.length : Int)) (shuffleWith sel blocks)
        with _ | ⟨c, cs⟩
      · simp [fallbackSmallest, hsort, List.nil_subperm]
      · have hc : c ∈ shuffleWith sel blocks :=
          (sortKey_head_min _ _ c cs hsort).1
        simp only [fallbackSmallest, hsort]
        exact (List.singleton_sublist.mpr hc).subperm.trans hpp.subperm
    · simp only [if_neg hcase]
      exact (greedyGo_sublist target _ 0).subperm.trans hpp.subperm

theorem pickBlocks_mem (sel : List Nat) (blocks : List Block) (target : Int)
    (b : Block) (hb : b ∈ pickBlocks sel blocks target) : b ∈ blocks :=
  (pickBlocks_subperm sel blocks target).subset hb

/-! ### Trim loop lemmas -/

theorem trimBlocks_sublist (maxv : Int) :
    ∀ (pool : List Block) (used : Int), (trimBlocks maxv pool used).Sublist pool := by
  intro pool
  induction pool with
  | nil => intro used; simp [trimBlocks]
  | cons b bs ih =>
    intro used
    by_cases h1 : used + (b.length : Int) ≤ maxv
    · simpa [trimBlocks, h1] using (ih (used + b.length)).cons₂ b
    · by_cases h2 : used = 0
      · subst h2
        simp only [trimBlocks, if_neg h1, if_pos rfl]
        exact (List.nil_sublist bs).cons₂ b
      · simpa [trimBlocks, h1, h2] using (ih used).cons b

theorem trimGo_eq_flatten (maxv : Int) :
    ∀ (pool : List Block) (used : Int),
      trimGo maxv pool used = (trimBlocks maxv pool used).flatten := by
  intro pool
  induction pool with
  | nil => intro used; simp [trimGo, trimBlocks]
  | cons b bs ih =>
    intro used
    by_cases h1 : used + (b.length : Int) ≤ maxv
    · simp [trimGo, trimBlocks, h1, ih]
    · by_cases h2 : used = 0
      · subst h2
        simp only [trimGo, trimBlocks, if_neg h1, if_pos rfl]
        simp
      · simp [trimGo, trimBlocks, h1, h2, ih]

theorem trimGo_pos_sum (maxv : Int) :
    ∀ (pool : List Block) (used : Int), 0 < used → used ≤ maxv →
      used + ((trimGo maxv pool used).length : Int) ≤ maxv := by
  intro pool
  induction pool with
  | nil => intro used h1 h2; simpa [trimGo]
  | cons b bs ih =>
    intro used h1 h2
    by_cases hfit : used + (b.length : Int) ≤ maxv
    · simp only [trimGo, if_pos hfit, List.length_append]
      have h3 := ih (used + b.length) (by omega) hfit
      push_cast at h3 ⊢
      omega
    · have hne : ¬ used = 0 := by omega
      simp only [trimGo, if_neg hfit, if_neg hne]
      exact ih used h1 h2

theorem trimGo_zero_cap (maxv : Int) (hm : 0 ≤ maxv) :
    ∀ pool : List Block,
      ((trimGo maxv pool 0).length : Int) ≤ maxv ∨
      ∃ b ∈ pool, trimGo maxv pool 0 = b ∧ maxv < (b.length : Int) := by
  intro pool
  induction pool with
  | nil => left; simpa [trimGo]
  | cons b bs ih =>
    by_cases hfit : (0 : Int) + (b.length : Int) ≤ maxv
    · by_cases hb0 : b.length = 0
      · have hbnil : b = [] := List.length_eq_zero.mp hb0
        subst hbnil
        have hstep : trimGo maxv ([] :: bs) 0 = trimGo maxv bs 0 := by
          simp [trimGo, hm]
        rcases ih with h | ⟨c, hc, he, hl⟩
        · left
          rw [hstep]
          exact h
        · right
          exact ⟨c, List.mem_cons_of_mem _ hc, by rw [hstep]; exact he, hl⟩
      · left
        simp only [trimGo, if_pos hfit, List.length_append]
        have h3 := trimGo_pos_sum maxv bs (0 + (b.length : Int)) (by omega) (by omega)
        push_cast at h3 ⊢
        omega
    · right
      refine ⟨b, List.mem_cons_self b bs, ?_, by omega⟩
      simp only [trimGo, if_neg hfit, if_pos rfl]
      simp

theorem trimGo_pos_eq_specWalk (maxv : Int) :
    ∀ (pool : List Block) (used : Int), 0 < used →
      trimGo maxv pool used = specWalk maxv pool used := by
  intro pool
  induction pool with
  | nil => intro used _; simp [trimGo, specWalk]
  | cons b bs ih =>
    intro used h1
    by_cases hfit : used + (b.length : Int) ≤ maxv
    · simp only [trimGo, specWalk, if_pos hfit]
      rw [ih (used + b.length) (by omega)]
    · have hne : ¬ used = 0 := by omega
      simp only [trimGo, specWalk, if_neg hfit, if_neg hne]
      exact ih used h1

/-! ### Buckets and the grouping loop -/

theorem bucket_append_single (l : List Question) (q : Question) (k : String) :
    bucket (l ++ [q]) k =
      bucket l k ++ (if groupKey q = some k then [q] else []) := by
  by_cases h : groupKey q = some k
  · simp [bucket, List.filter_append, h]
  · simp [bucket, List.filter_append, h]

theorem mem_bucket (l : List Question) (k : String) (q : Question) :
    q ∈ bucket l k ↔ q ∈ l ∧ groupKey q = some k := by
  simp [bucket]

theorem addToGroups_keys (gs : List (String × List Question)) (k : String) (q : Question) :
    (addToGroups gs k q).map Prod.fst =
      if k ∈ gs.map Prod.fst then gs.map Prod.fst else gs.map Prod.fst ++ [k] := by
  induction gs with
  | nil => simp [addToGroups]
  | cons p rest ih =>
    rcases p with ⟨k', m⟩
    by_cases hk : k' = k
    · subst hk
      simp [addToGroups]
    · simp only [addToGroups, if_neg hk, List.map_cons]
      rw [ih]
      by_cases hmem : k ∈ rest.map Prod.fst
      · simp [hmem, hk]
      · simp [hmem, Ne.symm hk]

theorem addToGroups_mem :
    ∀ (gs : List (String × List Question)) (k : String) (q : Question),
      (gs.map Prod.fst).Nodup → ∀ p ∈ addToGroups gs k q,
      (p ∈ gs ∧ p.1 ≠ k) ∨
      (∃ m, (k, m) ∈ gs ∧ p = (k, m ++ [q])) ∨
      (k ∉ gs.map Prod.fst ∧ p = (k, [q])) := by
  intro gs k q
  induction gs with
  | nil =>
    intro _ p hp
    simp only [addToGroups, List.mem_singleton] at hp
    right; right
    exact ⟨by simp, hp⟩
  | cons hd rest ih =>
    rcases hd with ⟨k', m'⟩
    intro hnd p hp
    simp only [List.map_cons, List.nodup_cons] at hnd
    by_cases hk : k' = k
    · subst hk
      simp only [addToGroups, if_pos rfl, List.mem_cons] at hp
      cases hp with
      | head =>
        right; left
        exact ⟨m', List.mem_cons_self _ _, rfl⟩
      | tail _ hp =>
        left
        refine ⟨List.mem_cons_of_mem _ hp, ?_⟩
        intro hcon
        exact hnd.1 (by rw [← hcon]; exact List.mem_map_of_mem Prod.fst hp)
    · simp only [addToGroups, if_neg hk, List.mem_cons] at hp
      rcases hp with rfl | hp
      · left
        exact ⟨List.mem_cons_self _ _, hk⟩
      · rcases ih hnd.2 p hp with ⟨hmem, hne⟩ | ⟨m, hm, rfl⟩ | ⟨hnk, rfl⟩
        · exact Or.inl ⟨List.mem_cons_of_mem _ hmem, hne⟩
        · exact Or.inr (Or.inl ⟨m, List.mem_cons_of_mem _ hm, rfl⟩)
        · refine Or.inr (Or.inr ⟨?_, rfl⟩)
          simp only [List.map_cons, List.mem_cons]
          push_neg
          exact ⟨Ne.symm hk, hnk⟩

theorem foldl_buildStep_split :
    ∀ (l : List Question) (gs : List (String × List Question)) (ss : List Block),
      l.foldl buildStep (gs, ss) =
        (l.foldl gstep gs,
          ss ++ (l.filter (fun q => groupKey q = none)).map (fun q => [q])) := by
  intro l
  induction l with
  | nil => intro gs ss; simp
  | cons q t ih =>
    intro gs ss
    cases hk : groupKey q with
    | some k =>
      simp only [List.foldl_cons, buildStep, gstep, hk]
      rw [ih]
      simp [List.filter_cons, hk]
    | none =>
      simp only [List.foldl_cons, buildStep, gstep, hk]
      rw [ih]
      simp [List.filter_cons, hk]

theorem groupsFold_inv (l : List Question) :
    (∀ p ∈ groupsFold l, p.2 = bucket l p.1) ∧
    ((groupsFold l).map Prod.fst).Nodup ∧
    (∀ k, bucket l k ≠ [] → k ∈ (groupsFold l).map Prod.fst) := by
  induction l using List.reverseRecOn with
  | nil => simp [groupsFold, bucket]
  | append_singleton t q ih =>
    rcases ih with ⟨ihe, ihn, ihc⟩
    have hfold : groupsFold (t ++ [q]) = gstep (groupsFold t) q := by
      simp [groupsFold, List.foldl_append]
    cases hk : groupKey q with
    | none =>
      have hb : ∀ k, bucket (t ++ [q]) k = bucket t k := by
        intro k
        rw [bucket_append_single]
        simp [hk]
      rw [hfold]
      simp only [gstep, hk]
      refine ⟨?_, ihn, ?_⟩
      · intro p hp
        rw [hb]
        exact ihe p hp
      · intro k hkne
        rw [hb] at hkne
        exact ihc k hkne
    | some k0 =>
      rw [hfold]
      simp only [gstep, hk]
      have hb0 : ∀ k, k ≠ k0 → bucket (t ++ [q]) k = bucket t k := by
        intro k hkk
        rw [bucket_append_single]
        have hnk : ¬ (groupKey q = some k) := by
          rw [hk]
          simp [Ne.symm hkk]
        simp [hnk]
      have hbk0 : bucket (t ++ [q]) k0 = bucket t k0 ++ [q] := by
        rw [bucket_append_single]
        simp [hk]
      refine ⟨?_, ?_, ?_⟩
      · intro p hp
        rcases addToGroups_mem (groupsFold t) k0 q ihn p hp with
          ⟨hmem, hne⟩ | ⟨m, hm, rfl⟩ | ⟨hnk, rfl⟩
        · rw [hb0 p.1 hne]
          exact ihe p hmem
        · have hm2 : m = bucket t k0 := ihe (k0, m) hm
          simp [hbk0, hm2]
        · have hbt : bucket t k0 = [] := by
            by_contra hne
            exact hnk (ihc k0 hne)
          simp [hbk0, hbt]
      · rw [addToGroups_keys]
        by_cases hmem : k0 ∈ (groupsFold t).map Prod.fst
        · simpa [hmem] using ihn
        · simp only [if_neg hmem]
          simp [List.nodup_append, ihn, hmem]
      · intro k hkne
        rw [addToGroups_keys]
        by_cases hkk : k = k0
        · subst hkk
          by_cases hmem : k ∈ (groupsFold t).map Prod.fst
          · simp [hmem]
          · simp [hmem]
        · rw [hb0 k hkk] at hkne
          have hmemk := ihc k hkne
          by_cases hmem : k0 ∈ (groupsFold t).map Prod.fst
          · simpa [hmem] using hmemk
          · simp [hmem, hmemk]

theorem buildBlocksForExam_eq (e : Exam) :
    buildBlocksForExam e =
      (groupsFold e.questions).map (fun p => sortKey orderVal p.2) ++
        (e.questions.filter (fun q => groupKey q = none)).map (fun q => [q]) := by
  unfold buildBlocksForExam groupsFold
  rw [foldl_buildStep_split]
  simp

/-! ### The blocks of an exam partition its questions -/

theorem flatten_map_bucket_nil (ks : List String) :
    (ks.map fun k => bucket [] k).flatten = [] := by
  induction ks with
  | nil => rfl
  | cons a t ih => simp [bucket, ih]

theorem flatten_map_singleton (l : List Question) :
    (l.map fun q => [q]).flatten = l := by
  induction l with
  | nil => rfl
  | cons a t ih => simp [ih]

theorem flatten_map_insert_perm (f : String → List Question) (q : Question) (k0 : String) :
    ∀ ks : List String, k0 ∈ ks → ks.Nodup →
      ((ks.map fun k => if k = k0 then q :: f k else f k).flatten).Perm
        (q :: (ks.map f).flatten) := by
  intro ks
  induction ks with
  | nil => intro h _; simp at h
  | cons a t ih =>
    intro hmem hnd
    rcases List.nodup_cons.mp hnd with ⟨ha, hndt⟩
    by_cases hak : a = k0
    · subst hak
      have ht : (t.map fun k => if k = a then q :: f k else f k) = t.map f := by
        apply List.map_congr_left
        intro k hkmem
        have hne : ¬ (k = a) := fun h => ha (h ▸ hkmem)
        simp [hne]
      simp [ht]
    · have hmem' : k0 ∈ t := by
        rcases List.mem_cons.mp hmem with h | h
        · exact absurd h.symm hak
        · exact h
      simp only [List.map_cons, if_neg hak, List.flatten_cons]
      refine (List.Perm.append_left (f a) (ih hmem' hndt)).trans ?_
      exact List.perm_middle

theorem bucket_partition_perm :
    ∀ (l : List Question) (ks : List String), ks.Nodup →
      (∀ q ∈ l, ∀ k, groupKey q = some k → k ∈ ks) →
      ((ks.map fun k => bucket l k).flatten ++
        l.filter (fun q => groupKey q = none)).Perm l := by
  intro l
  induction l with
  | nil =>
    intro ks _ _
    simp [flatten_map_bucket_nil]
  | cons q t ih =>
    intro ks hnd hcov
    have hcov' : ∀ q' ∈ t, ∀ k, groupKey q' = some k → k ∈ ks :=
      fun q' hq' k hk' => hcov q' (List.mem_cons_of_mem _ hq') k hk'
    cases hk : groupKey q with
    | none =>
      have hb : (ks.map fun k => bucket (q :: t) k) = ks.map fun k => bucket t k := by
        apply List.map_congr_left
        intro k _
        simp [bucket, List.filter_cons, hk]
      have hf : (q :: t).filter (fun x => groupKey x = none)
          = q :: t.filter (fun x => groupKey x = none) := by
        simp [List.filter_cons, hk]
      rw [hb, hf]
      exact List.perm_middle.trans ((ih ks hnd hcov').cons q)
    | some k0 =>
      have hk0 : k0 ∈ ks := hcov q (List.mem_cons_self _ _) k0 hk
      have hb : (ks.map fun k => bucket (q :: t) k) =
          ks.map fun k => if k = k0 then q :: bucket t k else bucket t k := by
        apply List.map_congr_left
        intro k _
        by_cases hkk : k = k0
        · subst hkk
          simp [bucket, List.filter_cons, hk]
        · have hne : ¬ (groupKey q = some k) := by
            rw [hk]
            simp [Ne.symm hkk]
          simp [bucket, List.filter_cons, hne, hkk]
      have hf : (q :: t).filter (fun x => groupKey x = none)
          = t.filter (fun x => groupKey x = none) := by
        simp [List.filter_cons, hk]
      rw [hb, hf]
      refine (List.Perm.append_right _
        (flatten_map_insert_perm (fun k => bucket t k) q k0 ks hk0 hnd)).trans ?_
      exact (ih ks hnd hcov').cons q

theorem buildBlocks_flatten_perm (e : Exam) :
    (buildBlocksForExam e).flatten.Perm e.questions := by
  rcases groupsFold_inv e.questions with ⟨he, hn, hc⟩
  rw [buildBlocksForExam_eq, List.flatten_append]
  have hmapeq : (groupsFold e.questions).map (fun p => sortKey orderVal p.2)
      = ((groupsFold e.questions).map Prod.fst).map
          (fun k => sortKey orderVal (bucket e.questions k)) := by
    rw [List.map_map]
    apply List.map_congr_left
    intro p hp
    simp only [Function.comp]
    rw [he p hp]
  have hsortperm : ∀ ks : List String,
      ((ks.map fun k => sortKey orderVal (bucket e.questions k)).flatten).Perm
        ((ks.map fun k => bucket e.questions k).flatten) := by
    intro ks
    induction ks with
    | nil => simp
    | cons a t iht =>
      simpa using (sortKey_perm orderVal (bucket e.questions a)).append iht
  have hcov : ∀ q ∈ e.questions, ∀ k, groupKey q = some k →
      k ∈ (groupsFold e.questions).map Prod.fst := by
    intro q hq k hk
    apply hc
    intro hnil
    have hm := (mem_bucket e.questions k q).mpr ⟨hq, hk⟩
    rw [hnil] at hm
    exact absurd hm (List.not_mem_nil q)
  rw [hmapeq, flatten_map_singleton]
  exact (List.Perm.append_right _
    (hsortperm ((groupsFold e.questions).map Prod.fst))).trans
    (bucket_partition_perm e.questions ((groupsFold e.questions).map Prod.fst) hn hcov)

/-! ### Classification of built blocks -/

theorem buildBlocks_classify (e : Exam) (b : Block) (hb : b ∈ buildBlocksForExam e) :
    (∃ q, b = [q] ∧ groupKey q = none) ∨
    (∃ k, b = sortKey orderVal (bucket e.questions k)) := by
  rw [buildBlocksForExam_eq] at hb
  rcases List.mem_append.mp hb with hmem | hmem
  · rcases List.mem_map.mp hmem with ⟨p, hp, rfl⟩
    right
    refine ⟨p.1, ?_⟩
    rw [(groupsFold_inv e.questions).1 p hp]
  · rcases List.mem_map.mp hmem with ⟨q, hqf, rfl⟩
    left
    refine ⟨q, rfl, ?_⟩
    have hm := List.mem_filter.mp hqf
    simpa using hm.2

theorem bucket_block_mem (e : Exam) (k : String) (hne : bucket e.questions k ≠ []) :
    sortKey orderVal (bucket e.questions k) ∈ buildBlocksForExam e := by
  rcases groupsFold_inv e.questions with ⟨he, _, hc⟩
  rcases List.mem_map.mp (hc k hne) with ⟨p, hp, hp1⟩
  rw [buildBlocksForExam_eq]
  apply List.mem_append_left
  apply List.mem_map.mpr
  refine ⟨p, hp, ?_⟩
  rw [he p hp, hp1]

theorem singleton_block_mem (e : Exam) (q : Question) (hq : q ∈ e.questions)
    (hk : groupKey q = none) : [q] ∈ buildBlocksForExam e := by
  rw [buildBlocksForExam_eq]
  apply List.mem_append_right
  apply List.mem_map.mpr
  exact ⟨q, List.mem_filter.mpr ⟨hq, by simp [hk]⟩, rfl⟩

/-! ### From per-exam picks to the assembled list -/

theorem subperm_append_compat {l₁ l₂ r₁ r₂ : List α}
    (h1 : l₁.Subperm l₂) (h2 : r₁.Subperm r₂) : (l₁ ++ r₁).Subperm (l₂ ++ r₂) := by
  rcases h1 with ⟨u, hu, hus⟩
  rcases h2 with ⟨v, hv, hvs⟩
  exact ⟨u ++ v, hu.append hv, hus.append hvs⟩

theorem sublist_flatten {L₁ L₂ : List (List α)} (h : L₁.Sublist L₂) :
    L₁.flatten.Sublist L₂.flatten := by
  induction h with
  | slnil => simp
  | cons b _ ihs => exact ihs.trans (List.sublist_append_right b _)
  | cons₂ b _ ihs => exact List.Sublist.append (List.Sublist.refl b) ihs

theorem subperm_flatten {L₁ L₂ : List (List α)} (h : L₁.Subperm L₂) :
    L₁.flatten.Subperm L₂.flatten := by
  rcases h with ⟨u, hu, hus⟩
  exact ⟨u.flatten, hu.flatten, sublist_flatten hus⟩

theorem assembleBlocks_mem (rngs : Nat → List Nat) (base : Int) :
    ∀ (es : List Exam) (i : Nat) (b : Block), b ∈ assembleBlocks rngs base es i →
      ∃ e ∈ es, b ∈ buildBlocksForExam e := by
  intro es
  induction es with
  | nil => intro i b hb; simp [assembleBlocks] at hb
  | cons e t ih =>
    intro i b hb
    rcases List.mem_append.mp hb with hmem | hmem
    · exact ⟨e, List.mem_cons_self _ _, pickBlocks_mem _ _ _ b hmem⟩
    · rcases ih (i + 1) b hmem with ⟨e', he', hb'⟩
      exact ⟨e', List.mem_cons_of_mem _ he', hb'⟩

theorem assembleBlocks_subperm (rngs : Nat → List Nat) (base : Int) :
    ∀ (es : List Exam) (i : Nat),
      (assembleBlocks rngs base es i).Subperm ((es.map buildBlocksForExam).flatten) := by
  intro es
  induction es with
  | nil => intro i; simp [assembleBlocks]
  | cons e t ih =>
    intro i
    simp only [assembleBlocks, List.map_cons, List.flatten_cons]
    exact subperm_append_compat (pickBlocks_subperm _ _ _) (ih (i + 1))

theorem built_flatten_perm (es : List Exam) :
    ((es.map buildBlocksForExam).flatten.flatten).Perm ((es.map Exam.questions).flatten) := by
  induction es with
  | nil => simp
  | cons e t ih =>
    simp only [List.map_cons, List.flatten_cons, List.flatten_append]
    exact (buildBlocks_flatten_perm e).append ih

theorem assemble_questions_subperm (rngs : Nat → List Nat) (rngG : List Nat)
    (exams : List Exam) (qb qm : Option Int) :
    (assemble rngs rngG exams qb qm).questions.Subperm
      ((exams.map Exam.questions).flatten) := by
  have hq : (assemble rngs rngG exams qb qm).questions
      = trimGo (defaultedParam qm 100) (assembledPool rngs rngG exams qb) 0 := rfl
  rw [hq, trimGo_eq_flatten]
  have hpool_perm : (assembledPool rngs rngG exams qb).Perm
      (assembleBlocks rngs (defaultedParam qb 25) exams 0) := shuffleWith_perm _ _
  have hblocks : (trimBlocks (defaultedParam qm 100) (assembledPool rngs rngG exams qb) 0).Subperm
      ((exams.map buildBlocksForExam).flatten) :=
    ((trimBlocks_sublist _ _ 0).subperm.trans hpool_perm.subperm).trans
      (assembleBlocks_subperm rngs _ exams 0)
  exact (subperm_flatten hblocks).trans (built_flatten_perm exams).subperm

theorem two_blocks_two_count {L : List Block} {b b' : Block} {q : Question}
    (hb : b ∈ L) (hb' : b' ∈ L) (hne : b ≠ b') (hq : q ∈ b) (hq' : q ∈ b') :
    2 ≤ L.flatten.count q := by
  rcases List.append_of_mem hb with ⟨s, t, rfl⟩
  have hb'2 : b' ∈ s ∨ b' ∈ t := by
    rcases List.mem_append.mp hb' with hmem | hmem
    · exact Or.inl hmem
    · rcases List.mem_cons.mp hmem with hbe | hmem
      · exact absurd hbe.symm hne
      · exact Or.inr hmem
  have hcb : 1 ≤ b.count q := List.count_pos_iff.mpr hq
  have hflat : (s ++ b :: t).flatten = s.flatten ++ (b ++ t.flatten) := by
    simp [List.flatten_append]
  rw [hflat, List.count_append, List.count_append]
  rcases hb'2 with hmem | hmem
  · have : 1 ≤ s.flatten.count q :=
      List.count_pos_iff.mpr (List.mem_flatten.mpr ⟨b', hmem, hq'⟩)
    omega
  · have : 1 ≤ t.flatten.count q :=
      List.count_pos_iff.mpr (List.mem_flatten.mpr ⟨b', hmem, hq'⟩)
    omega

/-! ### Small support lemmas for the endpoint parameters -/

theorem defaultedParam_pos (q : Option Int) (d : Int) (hd : 0 < d) :
    0 < defaultedParam q d := by
  cases q with
  | none => exact hd
  | some v =>
    show 0 < if 0 < v then v else d
    by_cases h : 0 < v
    · rw [if_pos h]
      exact h
    · rw [if_neg h]
      exact hd

theorem defaultedParam_idem (q : Option Int) (d : Int) (hd : 0 < d) :
    defaultedParam (some (defaultedParam q d)) d = defaultedParam q d := by
  have h := defaultedParam_pos q d hd
  show (if 0 < defaultedParam q d then defaultedParam q d else d) = defaultedParam q d
  rw [if_pos h]

theorem assemble_params_eq (rngs : Nat → List Nat) (rngG : List Nat) (exams : List Exam)
    (qb qb' qm qm' : Option Int)
    (hb : defaultedParam qb 25 = defaultedParam qb' 25)
    (hm : defaultedParam qm 100 = defaultedParam qm' 100) :
    assemble rngs rngG exams qb qm = assemble rngs rngG exams qb' qm' := by
  unfold assemble assembledPool
  rw [hb, hm]

theorem targetCount_zero (base : Int) : targetCount base 0 = 0 := by
  simp [targetCount, mathRound]

theorem pickBlocks_of_nil (sel : List Nat) (target : Int) :
    pickBlocks sel [] target = [] := by
  by_cases h : target ≤ 0
  · simp [pickBlocks, h]
  · simp [pickBlocks, h, shuffleWith, greedyGo]

theorem buildBlocks_of_nil (e : Exam) (h : e.questions = []) :
    buildBlocksForExam e = [] := by
  unfold buildBlocksForExam
  rw [h]
  rfl

theorem pickBlocks_of_nonpos (sel : List Nat) (blocks : List Block) (target : Int)
    (h : target ≤ 0) : pickBlocks sel blocks target = [] := by
  simp [pickBlocks, h]

theorem assembleBlocks_of_nonpos (rngs : Nat → List Nat) (base : Int) :
    ∀ (es : List Exam) (i : Nat), (∀ e ∈ es, targetCount base (weightOf e) ≤ 0) →
      assembleBlocks rngs base es i = [] := by
  intro es
  induction es with
  | nil => intro i _; rfl
  | cons e t ih =>
    intro i h
    simp only [assembleBlocks]
    rw [pickBlocks_of_nonpos _ _ _ (h e (List.mem_cons_self _ _)),
      ih (i + 1) (fun e' he' => h e' (List.mem_cons_of_mem _ he'))]
    rfl

theorem assembleBlocks_of_empty (rngs : Nat → List Nat) (base : Int) :
    ∀ (es : List Exam) (i : Nat), (∀ e ∈ es, e.questions = []) →
      assembleBlocks rngs base es i = [] := by
  intro es
  induction es with
  | nil => intro i _; rfl
  | cons e t ih =>
    intro i h
    simp only [assembleBlocks]
    rw [buildBlocks_of_nil e (h e (List.mem_cons_self _ _)), pickBlocks_of_nil,
      ih (i + 1) (fun e' he' => h e' (List.mem_cons_of_mem _ he'))]
    rfl

/-! ### Claim theorems -/

/-- Claim C5: for every `base` and `weightPercent`, the per-exam target is
`round(base * weightPercent / 100)` rounded to nearest with ties upward
(characterized by `target - 1/2 <= base*w/100 < target + 1/2`, scaled by
200); a weight of 0 or a missing weight yields target 0; and in particular
base 25 with weight 40 gives 10, base 25 with weight 33 gives 8. -/
theorem quota_allocator_rounding (base w : Int) :
    ((2 * targetCount base w - 1) * 100 ≤ 2 * (base * w) ∧
      2 * (base * w) < (2 * targetCount base w + 1) * 100) ∧
    targetCount base (weightOf { questions := [], questionPercentage := none }) = 0 ∧
    targetCount base 0 = 0 ∧
    targetCount 25 40 = 10 ∧ targetCount 25 33 = 8 := by
  refine ⟨?_, targetCount_zero base, targetCount_zero base, by decide, by decide⟩
  unfold targetCount mathRound
  generalize base * w = n
  omega

/-- Claim C7: a missing or non-positive `base` is replaced by 25 and a
missing or non-positive `max` by 100, a positive value is kept, the request
is never rejected (the computation is total by construction), and the
response carries exactly the effective parameters: re-running the assembly
with the returned `base` and `max` reproduces the same response. -/
theorem input_defaulting (rngs : Nat → List Nat) (rngG : List Nat) (exams : List Exam)
    (qb qm : Option Int) :
    ((qb = none → (assemble rngs rngG exams qb qm).base = 25) ∧
      (∀ v, qb = some v → v ≤ 0 → (assemble rngs rngG exams qb qm).base = 25) ∧
      (∀ v, qb = some v → 0 < v → (assemble rngs rngG exams qb qm).base = v)) ∧
    ((qm = none → (assemble rngs rngG exams qb qm).max = 100) ∧
      (∀ v, qm = some v → v ≤ 0 → (assemble rngs rngG exams qb qm).max = 100) ∧
      (∀ v, qm = some v → 0 < v → (assemble rngs rngG exams qb qm).max = v)) ∧
    assemble rngs rngG exams qb qm =
      assemble rngs rngG exams (some (assemble rngs rngG exams qb qm).base)
        (some (assemble rngs rngG exams qb qm).max) := by
  have hbase : (assemble rngs rngG exams qb qm).base = defaultedParam qb 25 := rfl
  have hmax : (assemble rngs rngG exams qb qm).max = defaultedParam qm 100 := rfl
  refine ⟨⟨?_, ?_, ?_⟩, ⟨?_, ?_, ?_⟩, ?_⟩
  · intro h
    rw [hbase, h]
    rfl
  · intro v h hv
    rw [hbase, h]
    show (if 0 < v then v else 25) = 25
    rw [if_neg (by omega)]
  · intro v h hv
    rw [hbase, h]
    show (if 0 < v then v else 25) = v
    rw [if_pos hv]
  · intro h
    rw [hmax, h]
    rfl
  · intro v h hv
    rw [hmax, h]
    show (if 0 < v then v else 100) = 100
    rw [if_neg (by omega)]
  · intro v h hv
    rw [hmax, h]
    show (if 0 < v then v else 100) = v
    rw [if_pos hv]
  · refine (assemble_params_eq rngs rngG exams _ qb _ qm ?_ ?_).symm
    · rw [hbase]
      exact defaultedParam_idem qb 25 (by norm_num)
    · rw [hmax]
      exact defaultedParam_idem qm 100 (by norm_num)

/-- Claim C7 witness: at the concrete request with `base = 0` (non-positive)
and `max` absent, the effective values are the defaults 25 and 100. -/
theorem input_defaulting_witness :
    (assemble (fun _ => []) [] [] (some 0) none).base = 25 ∧
    (assemble (fun _ => []) [] [] (some 0) none).max = 100 :=
  ⟨(input_defaulting (fun _ => []) [] [] (some 0) none).1.2.1 0 rfl (by decide),
    (input_defaulting (fun _ => []) [] [] (some 0) none).2.1.1 rfl⟩

/-- Claim C8: the response is `base, max, count, questions` with `count`
equal to the length of `questions`; zero exams give the empty response with
the effective parameters, and all-zero weights or all-empty question lists
likewise give an empty question list rather than an error. -/
theorem output_shape (rngs : Nat → List Nat) (rngG : List Nat) (exams : List Exam)
    (qb qm : Option Int) :
    (assemble rngs rngG exams qb qm).count
        = (assemble rngs rngG exams qb qm).questions.length ∧
    (exams = [] → assemble rngs rngG exams qb qm =
      { base := defaultedParam qb 25, max := defaultedParam qm 100,
        count := 0, questions := [] }) ∧
    ((∀ e ∈ exams, weightOf e = 0) →
      (assemble rngs rngG exams qb qm).count = 0 ∧
      (assemble rngs rngG exams qb qm).questions = []) ∧
    ((∀ e ∈ exams, e.questions = []) →
      (assemble rngs rngG exams qb qm).count = 0 ∧
      (assemble rngs rngG exams qb qm).questions = []) := by
  refine ⟨rfl, ?_, ?_, ?_⟩
  · intro h
    subst h
    simp [assemble, assembledPool, assembleBlocks, shuffleWith, trimGo]
  · intro h
    have hnil : assembleBlocks rngs (defaultedParam qb 25) exams 0 = [] := by
      apply assembleBlocks_of_nonpos
      intro e he
      rw [h e he, targetCount_zero]
    have hq : (assemble rngs rngG exams qb qm).questions = [] := by
      show trimGo (defaultedParam qm 100) (assembledPool rngs rngG exams qb) 0 = []
      unfold assembledPool
      rw [hnil]
      simp [shuffleWith, trimGo]
    refine ⟨?_, hq⟩
    show (assemble rngs rngG exams qb qm).questions.length = 0
    rw [hq]
    rfl
  · intro h
    have hnil : assembleBlocks rngs (defaultedParam qb 25) exams 0 = [] :=
      assembleBlocks_of_empty rngs _ exams 0 h
    have hq : (assemble rngs rngG exams qb qm).questions = [] := by
      show trimGo (defaultedParam qm 100) (assembledPool rngs rngG exams qb) 0 = []
      unfold assembledPool
      rw [hnil]
      simp [shuffleWith, trimGo]
    refine ⟨?_, hq⟩
    show (assemble rngs rngG exams qb qm).questions.length = 0
    rw [hq]
    rfl

/-- Claim C8 witness: the empty-exam request returns the empty response, and
a request whose only exam has weight 0 returns no questions. -/
theorem output_shape_witness :
    assemble (fun _ => []) [] [] none none
        = { base := 25, max := 100, count := 0, questions := [] } ∧
    (assemble (fun _ => []) [] [wExamZ] none none).questions = [] :=
  ⟨(output_shape (fun _ => []) [] [] none none).2.1 rfl,
    ((output_shape (fun _ => []) [] [wExamZ] none none).2.2.1 (by decide)).2⟩

/-- Claim C4: for every block list and integer target and every shuffle
outcome, a non-positive target selects nothing; otherwise the selected
blocks total at most `target`, except when no block fitted, in which case
the selection is exactly one block whose size is the minimum block size of
the pool and exceeds the target. -/
theorem pick_blocks_contract (sel : List Nat) (blocks : List Block) (target : Int) :
    (target ≤ 0 → pickBlocks sel blocks target = []) ∧
    (0 < target →
      ((sumLen (pickBlocks sel blocks target) : Int) ≤ target ∨
        ∃ b, pickBlocks sel blocks target = [b] ∧ b ∈ blocks ∧
          (∀ c ∈ blocks, b.length ≤ c.length) ∧ target < (b.length : Int))) := by
  refine ⟨fun h => pickBlocks_of_nonpos sel blocks target h, ?_⟩
  intro hpos
  have hnle : ¬ target ≤ 0 := by omega
  have hperm := shuffleWith_perm sel blocks
  simp only [pickBlocks, if_neg hnle]
  by_cases hcase : (greedyGo target (shuffleWith sel blocks) 0).isEmpty
      && !(shuffleWith sel blocks).isEmpty
  · rw [if_pos hcase]
    rw [Bool.and_eq_true] at hcase
    have hpe : greedyGo target (shuffleWith sel blocks) 0 = [] :=
      List.isEmpty_iff.mp hcase.1
    right
    rcases hsort : sortKey (fun b => (b.length : Int)) (shuffleWith sel blocks)
      with _ | ⟨c, cs⟩
    · exfalso
      have hnil := sortKey_perm (fun b => (b.length : Int)) (shuffleWith sel blocks)
      rw [hsort] at hnil
      have hpn : shuffleWith sel blocks = [] := hnil.symm.eq_nil
      have h2 := hcase.2
      rw [hpn] at h2
      simp at h2
    · have hmin := sortKey_head_min (fun b => (b.length : Int)) _ c cs hsort
      refine ⟨c, by simp [fallbackSmallest, hsort], hperm.subset hmin.1, ?_, ?_⟩
      · intro d hd
        have hdp : d ∈ shuffleWith sel blocks := hperm.symm.subset hd
        simpa using hmin.2 d hdp
      · have := greedyGo_nil_reject target _ 0 hpe c hmin.1
        omega
  · rw [if_neg hcase]
    left
    have h0 := greedyGo_sum_le target (shuffleWith sel blocks) 0 (by omega)
    omega

/-- Claim C4 witness: a pool with a single two-question block and target 1
goes through the fallback: the selection is exactly that smallest block. -/
theorem pick_blocks_contract_witness :
    (0 : Int) < 1 ∧
    ((sumLen (pickBlocks [] [[wq 1, wq 2]] 1) : Int) ≤ 1 ∨
      ∃ b, pickBlocks [] [[wq 1, wq 2]] 1 = [b] ∧ b ∈ [[wq 1, wq 2]] ∧
        (∀ c ∈ [[wq 1, wq 2]], b.length ≤ c.length) ∧ (1 : Int) < (b.length : Int)) :=
  ⟨by decide, (pick_blocks_contract [] [[wq 1, wq 2]] 1).2 (by decide)⟩

/-- Claim C2: for every input and every outcome of the two shuffles, the
returned count stays within the effective `max`, except when the global
fallback fired, in which case the returned questions are exactly one block
of the shuffled pool whose size exceeds `max`. -/
theorem global_cap_bound (rngs : Nat → List Nat) (rngG : List Nat) (exams : List Exam)
    (qb qm : Option Int) :
    ((assemble rngs rngG exams qb qm).count : Int) ≤ (assemble rngs rngG exams qb qm).max ∨
    ∃ b ∈ assembledPool rngs rngG exams qb,
      (assemble rngs rngG exams qb qm).questions = b ∧
      (assemble rngs rngG exams qb qm).max < (b.length : Int) := by
  have hm : (0 : Int) ≤ defaultedParam qm 100 :=
    le_of_lt (defaultedParam_pos qm 100 (by norm_num))
  rcases trimGo_zero_cap (defaultedParam qm 100) hm (assembledPool rngs rngG exams qb)
    with h | ⟨b, hb, he, hl⟩
  · left
    exact h
  · right
    exact ⟨b, hb, he, hl⟩

/-- Claim C3, amended: in the global trim walk, once the running total is
positive an overflowing block is skipped and the walk continues through
every subsequent block, exactly as the spec's walk does; but the oversized
fallback is decided at the first block, not after the walk: when the first
block of the pool already exceeds `max` it is force-accepted and the walk
stops immediately, without trying subsequent blocks that might fit. -/
theorem global_trim_walk (maxv : Int) (pool : List Block) (hne : ∀ b ∈ pool, b ≠ []) :
    (pool = [] → trimGo maxv pool 0 = []) ∧
    (∀ b bs, pool = b :: bs → maxv < (b.length : Int) → trimGo maxv pool 0 = b) ∧
    (∀ b bs, pool = b :: bs → (b.length : Int) ≤ maxv →
      trimGo maxv pool 0 = specWalk maxv pool 0) := by
  refine ⟨?_, ?_, ?_⟩
  · intro h
    subst h
    rfl
  · intro b bs h hlt
    subst h
    have hfit : ¬ ((0 : Int) + (b.length : Int) ≤ maxv) := by omega
    simp only [trimGo, if_neg hfit, if_pos rfl]
    simp
  · intro b bs h hle
    subst h
    have hblen : b ≠ [] := hne b (List.mem_cons_self _ _)
    have hpos : 0 < b.length := List.length_pos.mpr hblen
    have hfit : ((0 : Int) + (b.length : Int) ≤ maxv) := by omega
    simp only [trimGo, specWalk, if_pos hfit]
    rw [trimGo_pos_eq_specWalk maxv bs (0 + (b.length : Int)) (by omega)]

/-- Claim C3 witness: with cap 3 and the concrete pool whose first block has
five questions, the code force-accepts that first block. -/
theorem global_trim_walk_witness :
    (∀ b ∈ cexPool, b ≠ []) ∧ trimGo 3 cexPool 0 = cexBigBlock :=
  ⟨by decide,
    (global_trim_walk 3 cexPool (by decide)).2.1 cexBigBlock [cexSmallBlock] rfl (by decide)⟩

/-- Claim C3 counterexample: with cap 3, an oversized first block and a
fitting second block, the code does not skip the oversized block and does
not continue the walk — it returns the five oversized questions, while the
walk the claim describes (skip and continue, fallback only if the list is
empty after the whole walk) would return the two fitting ones. -/
theorem global_trim_walk_cex :
    trimGo 3 cexPool 0 = cexBigBlock ∧
    (3 : Int) < (cexBigBlock.length : Int) ∧
    ((cexSmallBlock.length : Int) ≤ 3) ∧
    specTrim 3 cexPool = cexSmallBlock ∧
    trimGo 3 cexPool 0 ≠ specTrim 3 cexPool := by
  refine ⟨by decide, by decide, by decide, by decide, by decide⟩

/-- Claim C6: the blocks built for an exam partition its questions (their
concatenation is a permutation of the exam's questions); every block is
either a singleton holding an ungrouped question or consists exactly of the
questions of one group key, sorted ascending by `order` (missing or
non-finite order read as 0) and stable — for every order value the
questions carrying it appear in their original relative order; every
ungrouped question yields a singleton block; and every non-empty bucket
becomes a block. -/
theorem block_builder_correct (e : Exam) :
    (buildBlocksForExam e).flatten.Perm e.questions ∧
    (∀ b ∈ buildBlocksForExam e,
      (∃ q, b = [q] ∧ groupKey q = none) ∨
      (∃ k, (∀ q ∈ b, groupKey q = some k) ∧
        b.Perm (bucket e.questions k) ∧
        b.Pairwise (fun x y => orderVal x ≤ orderVal y) ∧
        (∀ v : Int, b.filter (fun q => orderVal q = v) =
          (bucket e.questions k).filter (fun q => orderVal q = v)))) ∧
    (∀ q ∈ e.questions, groupKey q = none → [q] ∈ buildBlocksForExam e) ∧
    (∀ k, bucket e.questions k ≠ [] →
      ∃ b ∈ buildBlocksForExam e, b.Perm (bucket e.questions k)) := by
  refine ⟨buildBlocks_flatten_perm e, ?_,
    fun q hq hk => singleton_block_mem e q hq hk, ?_⟩
  · intro b hb
    rcases buildBlocks_classify e b hb with ⟨q, rfl, hk⟩ | ⟨k, rfl⟩
    · exact Or.inl ⟨q, rfl, hk⟩
    · right
      refine ⟨k, ?_, sortKey_perm _ _, sortKey_pairwise _ _,
        fun v => sortKey_filter_eq _ v _⟩
      intro q hq
      have hqb : q ∈ bucket e.questions k := (sortKey_perm orderVal _).subset hq
      exact ((mem_bucket _ _ _).mp hqb).2
  · intro k hkne
    exact ⟨sortKey orderVal (bucket e.questions k), bucket_block_mem e k hkne,
      sortKey_perm _ _⟩

/-- Claim C6 witness: the concrete exam with one two-question group and one
ungrouped question builds a non-empty block list whose flattening permutes
the exam's questions. -/
theorem block_builder_correct_witness :
    buildBlocksForExam wExamA ≠ [] ∧
    (buildBlocksForExam wExamA).flatten.Perm wExamA.questions :=
  ⟨by decide, (block_builder_correct wExamA).1⟩

/-- Claim C1: when the input questions are pairwise distinct, every built
block of every exam is all-or-nothing in the final returned question list:
either each of its questions appears in the result, or none does. -/
theorem no_split_invariant (rngs : Nat → List Nat) (rngG : List Nat) (exams : List Exam)
    (qb qm : Option Int)
    (hnd : ((exams.map Exam.questions).flatten).Nodup) :
    ∀ e ∈ exams, ∀ b ∈ buildBlocksForExam e,
      (∀ q ∈ b, q ∈ (assemble rngs rngG exams qb qm).questions) ∨
      (∀ q ∈ b, q ∉ (assemble rngs rngG exams qb qm).questions) := by
  intro e he b hb
  have hq : (assemble rngs rngG exams qb qm).questions
      = (trimBlocks (defaultedParam qm 100) (assembledPool rngs rngG exams qb) 0).flatten :=
    trimGo_eq_flatten _ _ 0
  by_cases hmem : b ∈ trimBlocks (defaultedParam qm 100) (assembledPool rngs rngG exams qb) 0
  · left
    intro q hqb
    rw [hq]
    exact List.mem_flatten.mpr ⟨b, hmem, hqb⟩
  · right
    intro q hqb hqR
    rw [hq] at hqR
    rcases List.mem_flatten.mp hqR with ⟨b', hb'R, hqb'⟩
    have hb'pool : b' ∈ assembledPool rngs rngG exams qb :=
      List.Sublist.mem hb'R (trimBlocks_sublist _ _ 0)
    have hpool_perm : (assembledPool rngs rngG exams qb).Perm
        (assembleBlocks rngs (defaultedParam qb 25) exams 0) := shuffleWith_perm _ _
    have hb'ab : b' ∈ assembleBlocks rngs (defaultedParam qb 25) exams 0 :=
      hpool_perm.subset hb'pool
    rcases assembleBlocks_mem rngs _ exams 0 b' hb'ab with ⟨e', he', hb'built⟩
    have hbBL : b ∈ (exams.map buildBlocksForExam).flatten :=
      List.mem_flatten.mpr ⟨buildBlocksForExam e, List.mem_map_of_mem _ he, hb⟩
    have hb'BL : b' ∈ (exams.map buildBlocksForExam).flatten :=
      List.mem_flatten.mpr ⟨buildBlocksForExam e', List.mem_map_of_mem _ he', hb'built⟩
    have hbb' : b ≠ b' := by
      intro hcon
      exact hmem (hcon ▸ hb'R)
    have h2 : 2 ≤ ((exams.map buildBlocksForExam).flatten.flatten).count q :=
      two_blocks_two_count hbBL hb'BL hbb' hqb hqb'
    rw [(built_flatten_perm exams).count_eq q] at h2
    have hle := List.nodup_iff_count_le_one.mp hnd q
    omega

/-- Claim C1 witness: on the concrete one-exam input with distinct
questions, every built block is all-or-nothing in the assembled output. -/
theorem no_split_invariant_witness :
    ((([wExamA].map Exam.questions).flatten).Nodup) ∧
    (∀ e ∈ [wExamA], ∀ b ∈ buildBlocksForExam e,
      (∀ q ∈ b, q ∈ (assemble (fun _ => []) [] [wExamA] none none).questions) ∨
      (∀ q ∈ b, q ∉ (assemble (fun _ => []) [] [wExamA] none none).questions)) :=
  ⟨by decide, no_split_invariant (fun _ => []) [] [wExamA] none none (by decide)⟩

/-- Claim C10: when the input questions are pairwise distinct, no question
appears twice in the final returned list — block building partitions each
exam's questions, selection takes each block at most once, and the global
shuffle and trim never replicate a block. -/
theorem no_duplication (rngs : Nat → List Nat) (rngG : List Nat) (exams : List Exam)
    (qb qm : Option Int)
    (hnd : ((exams.map Exam.questions).flatten).Nodup) :
    (assemble rngs rngG exams qb qm).questions.Nodup := by
  rcases assemble_questions_subperm rngs rngG exams qb qm with ⟨u, hu, hus⟩
  exact hu.nodup_iff.mp (List.Nodup.sublist hus hnd)

/-- Claim C10 witness: on a concrete two-exam input with distinct questions
the assembled list has no duplicates. -/
theorem no_duplication_witness :
    ((([wExamA, wExamB].map Exam.questions).flatten).Nodup) ∧
    (assemble (fun _ => []) [] [wExamA, wExamB] none none).questions.Nodup :=
  ⟨by decide, no_duplication (fun _ => []) [] [wExamA, wExamB] none none (by decide)⟩

/-- Claim C9: the source's two shuffles read the ambient `Math.random()`,
which has no seed parameter anywhere in the endpoint; the assembled output
genuinely depends on those ambient draws — identical exam data and
parameters with different draw sequences produce different question lists —
so without injecting a seedable source, re-running is not reproducible. -/
theorem assemble_depends_on_ambient_randomness :
    assemble (fun _ => []) [] [wExamB, wExamC] none none
      ≠ assemble (fun _ => []) [1] [wExamB, wExamC] none none := by
  decide
